import Mathlib

/-!
Verification of the citation-highlighting subsystem of the RAG handbook
assistant.

The development shallowly embeds, over `List Char` strings:
  * the Phrase Matcher `HighlightedText` (MarkdownRenderer.tsx),
  * the Highlight Target Resolver `allHighlightTargets` (SourceViewer.tsx),
  * the Analysis Task Coordinator `handleTriggerDocAnalysis`,
    `updateMessageHighlights` and `handleDeleteChat` (App.tsx), together
    with the evidence-fetch collaborator `getRelevanceHighlights`
    (apiService.ts).

JavaScript strings are modelled as `List Char`; `toLowerCase` as the ASCII
lower-casing used by the repository's content; `String.trim` over the ASCII
whitespace characters; `Set` as first-occurrence-deduplicated lists;
`Record<string, string[]>` as association lists looked up on the first
matching key.
-/

namespace Rag

/-- A rendered span of text: either plain, or wrapped in a mark tag.
Models the output elements of `HighlightedText` (strings are plain spans,
mark nodes are matched spans). -/
structure Span where
  text : List Char
  isMatch : Bool
deriving DecidableEq, Repr

/-- ASCII lower-casing, modelling `String.prototype.toLowerCase` as used on
the repository's text. -/
def lowerChar (c : Char) : Char :=
  if 65 ≤ c.toNat ∧ c.toNat ≤ 90 then Char.ofNat (c.toNat + 32) else c

/-- Lower-case a whole string. -/
def lowerStr (s : List Char) : List Char :=
  s.map lowerChar

/-- Whitespace as removed by `String.prototype.trim` (ASCII subset:
space, tab, line feed, carriage return). -/
def isWs (c : Char) : Bool :=
  c.toNat = 32 || c.toNat = 9 || c.toNat = 10 || c.toNat = 13

/-- `String.prototype.trim`: strip leading and trailing whitespace. -/
def trimChars (s : List Char) : List Char :=
  (((s.dropWhile isWs).reverse).dropWhile isWs).reverse

/-- Case-insensitive string-equality-at-the-front test (used on already
lower-cased lists). -/
def isPre : List Char → List Char → Bool
  | [], _ => true
  | _ :: _, [] => false
  | a :: as, b :: bs => a == b && isPre as bs

/-- Index of the leftmost case-insensitive occurrence of `t` in `s`,
mirroring what the global case-insensitive regex of `HighlightedText`
finds first. -/
def findOccGo (t : List Char) : List Char → Option Nat
  | [] => none
  | c :: s' =>
    if isPre (lowerStr t) (lowerStr (c :: s')) then some 0
    else (findOccGo t s').map (· + 1)

/-- Leftmost occurrence search; the empty target never occurs (the matcher
filters empty targets out before searching). -/
def findOcc (t s : List Char) : Option Nat :=
  if t.isEmpty then none else findOccGo t s

theorem isPre_length {a b : List Char} (h : isPre a b = true) :
    a.length ≤ b.length := by
  induction a generalizing b with
  | nil => exact Nat.zero_le _
  | cons x xs ih =>
    cases b with
    | nil => simp [isPre] at h
    | cons y ys =>
      simp only [isPre, Bool.and_eq_true] at h
      simpa using ih h.2

theorem findOccGo_some {t s : List Char} {i : Nat}
    (h : findOccGo t s = some i) :
    isPre (lowerStr t) (lowerStr (s.drop i)) = true := by
  induction s generalizing i with
  | nil => simp [findOccGo] at h
  | cons c s' ih =>
    by_cases hp : isPre (lowerStr t) (lowerStr (c :: s')) = true
    · simp only [findOccGo, hp, if_true, Option.some.injEq] at h
      subst h
      simpa using hp
    · cases hj : findOccGo t s' with
      | none => simp [findOccGo, hp, hj] at h
      | some j =>
        have h' : j + 1 = i := by
          simp [findOccGo, hp, hj] at h
          omega
        subst h'
        simpa using ih hj

theorem findOcc_some {t s : List Char} {i : Nat}
    (h : findOcc t s = some i) :
    t ≠ [] ∧ i + t.length ≤ s.length := by
  unfold findOcc at h
  by_cases he : t.isEmpty
  · simp [he] at h
  · have htne : t ≠ [] := by simpa [List.isEmpty_iff] using he
    refine ⟨htne, ?_⟩
    have hpre := findOccGo_some (by simpa [he] using h)
    have hlen := isPre_length hpre
    simp only [lowerStr, List.length_map, List.length_drop] at hlen
    have htpos : 0 < t.length := List.length_pos.mpr htne
    omega

theorem findOcc_drop_lt {t s : List Char} {i : Nat}
    (h : findOcc t s = some i) :
    (s.drop (i + t.length)).length < s.length := by
  obtain ⟨hne, hle⟩ := findOcc_some h
  have ht : 0 < t.length := List.length_pos.mpr hne
  simp only [List.length_drop]
  omega

/-- Fuel-driven worker for `splitPlain` (structural recursion so that the
kernel can evaluate it; `s.length` fuel always suffices because every
recursive call strictly shortens `s`). -/
def splitPlainGo (t : List Char) : Nat → List Char → List Span
  | 0, s => if s.isEmpty then [] else [⟨s, false⟩]
  | fuel + 1, s =>
    match findOcc t s with
    | none => if s.isEmpty then [] else [⟨s, false⟩]
    | some i =>
      (if i = 0 then [] else [⟨s.take i, false⟩]) ++
        ⟨(s.drop i).take t.length, true⟩ ::
          splitPlainGo t fuel (s.drop (i + t.length))

/-- Split one plain segment on every case-insensitive occurrence of `t`,
keeping the original-case slices and dropping empty parts, exactly as
`seg.split(regex)` followed by the `part === ''` filter does. -/
def splitPlain (t s : List Char) : List Span :=
  splitPlainGo t s.length s

theorem findOcc_nil {t : List Char} : findOcc t [] = none := by
  unfold findOcc findOccGo
  split <;> rfl

theorem splitPlainGo_congr {t : List Char} :
    ∀ (fuel₁ fuel₂ : Nat) (s : List Char), s.length ≤ fuel₁ →
      s.length ≤ fuel₂ → splitPlainGo t fuel₁ s = splitPlainGo t fuel₂ s := by
  intro fuel₁
  induction fuel₁ with
  | zero =>
    intro fuel₂ s h₁ _
    have hs : s = [] := List.length_eq_zero.mp (Nat.le_zero.mp h₁)
    subst hs
    cases fuel₂ with
    | zero => rfl
    | succ n => simp [splitPlainGo, findOcc_nil]
  | succ n ih =>
    intro fuel₂ s h₁ h₂
    cases fuel₂ with
    | zero =>
      have hs : s = [] := List.length_eq_zero.mp (Nat.le_zero.mp h₂)
      subst hs
      simp [splitPlainGo, findOcc_nil]
    | succ m =>
      simp only [splitPlainGo]
      cases hf : findOcc t s with
      | none => rfl
      | some i =>
        have hlt := findOcc_drop_lt hf
        have := ih m (s.drop (i + t.length)) (by omega) (by omega)
        simp [this]

/-- The recursion equation of `splitPlain`, hiding the fuel. -/
theorem splitPlain_eq (t s : List Char) : splitPlain t s =
    match findOcc t s with
    | none => if s.isEmpty then [] else [⟨s, false⟩]
    | some i =>
      (if i = 0 then [] else [⟨s.take i, false⟩]) ++
        ⟨(s.drop i).take t.length, true⟩ ::
          splitPlain t (s.drop (i + t.length)) := by
  unfold splitPlain
  cases s with
  | nil => simp [splitPlainGo, findOcc_nil]
  | cons c s' =>
    simp only [List.length_cons, splitPlainGo]
    cases hf : findOcc t (c :: s') with
    | none => rfl
    | some i =>
      have hlt := findOcc_drop_lt hf
      have hcongr := @splitPlainGo_congr t s'.length
        ((c :: s').drop (i + t.length)).length ((c :: s').drop (i + t.length))
        (by simp only [List.length_cons] at hlt; omega) (Nat.le_refl _)
      simp [hcongr]

theorem splitPlain_none {t s : List Char} (h : findOcc t s = none) :
    splitPlain t s = if s.isEmpty then [] else [⟨s, false⟩] := by
  rw [splitPlain_eq, h]

theorem splitPlain_some {t s : List Char} {i : Nat}
    (h : findOcc t s = some i) :
    splitPlain t s = (if i = 0 then [] else [⟨s.take i, false⟩]) ++
      ⟨(s.drop i).take t.length, true⟩ ::
        splitPlain t (s.drop (i + t.length)) := by
  rw [splitPlain_eq, h]

/-- Process one segment for one target: matched segments are never
re-scanned; plain segments are split. -/
def stepSeg (t : List Char) (sp : Span) : List Span :=
  if sp.isMatch then [sp] else splitPlain t sp.text

/-- One pass of the `sortedTargets.forEach` body: skip empty or too-short
targets (`target.trim().length < 3`), otherwise split every currently
plain segment. -/
def applyTarget (segs : List Span) (t : List Char) : List Span :=
  if t.isEmpty ∨ (trimChars t).length < 3 then segs
  else segs.flatMap (stepSeg t)

/-- Insert into a descending-by-length list, before the first strictly
shorter element (stable). -/
def insertDesc (x : List Char) : List (List Char) → List (List Char)
  | [] => [x]
  | y :: ys => if y.length ≤ x.length then x :: y :: ys else y :: insertDesc x ys

/-- Stable sort by descending character length, modelling
`[...allTargets].sort((a, b) => b.length - a.length)`. -/
def sortTargets : List (List Char) → List (List Char)
  | [] => []
  | x :: xs => insertDesc x (sortTargets xs)

/-- The Phrase Matcher: `HighlightedText` from MarkdownRenderer.tsx,
returning the final segment list. -/
def HighlightedText (text : List Char) (allTargets : List (List Char)) :
    List Span :=
  if text.isEmpty ∨ allTargets.isEmpty then [⟨text, false⟩]
  else (sortTargets allTargets).foldl applyTarget [⟨text, false⟩]

/-- Concatenation of the texts of a span list. -/
def joinSpans (sps : List Span) : List Char :=
  (sps.map Span.text).flatten

theorem joinSpans_nil : joinSpans [] = [] := rfl

theorem joinSpans_cons (sp : Span) (l : List Span) :
    joinSpans (sp :: l) = sp.text ++ joinSpans l := rfl

theorem joinSpans_append (a b : List Span) :
    joinSpans (a ++ b) = joinSpans a ++ joinSpans b := by
  simp [joinSpans]

theorem joinSpans_splitPlain (t : List Char) : ∀ s : List Char,
    joinSpans (splitPlain t s) = s := by
  suffices H : ∀ (n : Nat) (s : List Char), s.length = n →
      joinSpans (splitPlain t s) = s by
    intro s
    exact H s.length s rfl
  intro n
  induction n using Nat.strong_induction_on with
  | _ n ih =>
    intro s hs
    rw [splitPlain_eq]
    cases hf : findOcc t s with
    | none =>
      by_cases hemp : s.isEmpty
      · simp [hemp, joinSpans_nil, List.isEmpty_iff.mp hemp]
      · simp [hemp, joinSpans_cons, joinSpans_nil]
    | some i =>
      have hlt := findOcc_drop_lt hf
      have ihrec : joinSpans (splitPlain t (s.drop (i + t.length)))
          = s.drop (i + t.length) :=
        ih (s.drop (i + t.length)).length (by omega) (s.drop (i + t.length)) rfl
      have hjoin : (s.drop i).take t.length ++ s.drop (i + t.length) = s.drop i := by
        have hdd : List.drop t.length (List.drop i s) = s.drop (i + t.length) :=
          List.drop_drop t.length i s
        rw [← hdd]
        exact List.take_append_drop _ _
      have hfull : List.take i s ++
          ((List.drop i s).take t.length ++ List.drop (i + t.length) s) = s := by
        rw [hjoin]
        exact List.take_append_drop _ _
      by_cases hi : i = 0
      · subst hi
        have ihrec' : joinSpans (splitPlain t (s.drop t.length)) = s.drop t.length := by
          simpa using ihrec
        simpa [joinSpans_cons, ihrec'] using hfull
      · simpa [if_neg hi, joinSpans_append, joinSpans_cons, joinSpans_nil,
          ihrec] using hfull

theorem joinSpans_stepSeg (t : List Char) (sp : Span) :
    joinSpans (stepSeg t sp) = sp.text := by
  unfold stepSeg
  by_cases h : sp.isMatch
  · simp [h, joinSpans_cons, joinSpans_nil]
  · simp [h, joinSpans_splitPlain]

theorem joinSpans_applyTarget (segs : List Span) (t : List Char) :
    joinSpans (applyTarget segs t) = joinSpans segs := by
  unfold applyTarget
  split
  · rfl
  · induction segs with
    | nil => rfl
    | cons sp rest ihr =>
      simp only [List.flatMap_cons, joinSpans_append, joinSpans_cons,
        joinSpans_stepSeg, ihr]

theorem joinSpans_foldl : ∀ (ts : List (List Char)) (segs : List Span),
    joinSpans (List.foldl applyTarget segs ts) = joinSpans segs := by
  intro ts
  induction ts with
  | nil => intro segs; rfl
  | cons t ts' ih =>
    intro segs
    simp only [List.foldl_cons, ih, joinSpans_applyTarget]

/-- Length of the text of the `i`-th span (`0` past the end). -/
def spanLen (sps : List Span) (i : Nat) : Nat :=
  (sps.getD i ⟨[], false⟩).text.length

/-- Character position in the original text at which the `i`-th span
starts: the spans are laid out consecutively. -/
def spanStart (sps : List Span) (i : Nat) : Nat :=
  ((sps.take i).map (fun sp => sp.text.length)).sum

/-- Position `p` of the original text falls inside the `i`-th span. -/
def coversPos (sps : List Span) (i p : Nat) : Prop :=
  spanStart sps i ≤ p ∧ p < spanStart sps i + spanLen sps i

instance (sps : List Span) (i p : Nat) : Decidable (coversPos sps i p) :=
  inferInstanceAs (Decidable (_ ∧ _))

theorem spanStart_succ {sps : List Span} {i : Nat} (h : i < sps.length) :
    spanStart sps (i + 1) = spanStart sps i + spanLen sps i := by
  unfold spanStart spanLen
  rw [List.take_succ]
  have : sps[i]? = some (sps.getD i ⟨[], false⟩) := by
    simp [List.getD, List.getElem?_eq_getElem h]
  rw [this]
  simp

theorem spanStart_mono {sps : List Span} {i j : Nat} (h : i ≤ j) :
    spanStart sps i ≤ spanStart sps j := by
  unfold spanStart
  have htake : sps.take i = (sps.take j).take i := by
    rw [List.take_take]
    simp [Nat.min_eq_left h]
  rw [htake]
  set L := (sps.take j).map (fun sp => sp.text.length) with hL
  have : ((sps.take j).take i).map (fun sp => sp.text.length) = L.take i := by
    rw [hL, List.map_take]
  rw [this]
  have := List.sum_take_add_sum_drop L i
  omega

/-- Distinct spans of one span list never cover the same character
position of the original text. -/
theorem coversPos_disjoint {sps : List Span} {i j p : Nat} (hij : i < j)
    (hj : j < sps.length) (hi : coversPos sps i p) : ¬ coversPos sps j p := by
  intro hjp
  have hilt : i < sps.length := Nat.lt_trans hij hj
  have h₁ : spanStart sps i + spanLen sps i ≤ spanStart sps j := by
    have heq := spanStart_succ hilt
    have hmono := @spanStart_mono sps (i + 1) j (by omega)
    omega
  obtain ⟨hi₁, hi₂⟩ := hi
  obtain ⟨hj₁, hj₂⟩ := hjp
  omega

theorem toNat_ofNat {n : Nat} (h : n < 55296) : (Char.ofNat n).toNat = n := by
  have hv : n.isValidChar := Or.inl h
  simp [Char.ofNat, hv, Char.ofNatAux, Char.toNat, UInt32.toNat,
    BitVec.toNat_ofNatLt]

theorem isWs_lowerChar (c : Char) : isWs (lowerChar c) = isWs c := by
  unfold lowerChar
  by_cases h : 65 ≤ c.toNat ∧ c.toNat ≤ 90
  · rw [if_pos h]
    have ht : (Char.ofNat (c.toNat + 32)).toNat = c.toNat + 32 :=
      toNat_ofNat (by omega)
    have h₁ : isWs (Char.ofNat (c.toNat + 32)) = false := by
      simp only [isWs, ht, Bool.or_eq_false_iff, decide_eq_false_iff_not]
      omega
    have h₂ : isWs c = false := by
      simp only [isWs, Bool.or_eq_false_iff, decide_eq_false_iff_not]
      omega
    rw [h₁, h₂]
  · rw [if_neg h]

theorem trimChars_lowerStr (s : List Char) :
    trimChars (lowerStr s) = lowerStr (trimChars s) := by
  have hws : (isWs ∘ lowerChar) = isWs := funext isWs_lowerChar
  unfold trimChars lowerStr
  rw [List.dropWhile_map, hws, ← List.map_reverse, List.dropWhile_map, hws,
    ← List.map_reverse]

theorem length_trimChars_lowerStr (s : List Char) :
    (trimChars (lowerStr s)).length = (trimChars s).length := by
  rw [trimChars_lowerStr]
  simp [lowerStr]

theorem isPre_take {a : List Char} : ∀ {b : List Char},
    isPre a b = true → b.take a.length = a := by
  induction a with
  | nil => intro b _; rfl
  | cons x xs ih =>
    intro b h
    cases b with
    | nil => simp [isPre] at h
    | cons y ys =>
      simp only [isPre, Bool.and_eq_true, beq_iff_eq] at h
      simp [List.take_succ_cons, h.1.symm, ih h.2]

theorem findOcc_some_pre {t s : List Char} {i : Nat}
    (h : findOcc t s = some i) :
    isPre (lowerStr t) (lowerStr (s.drop i)) = true := by
  unfold findOcc at h
  by_cases he : t.isEmpty
  · simp [he] at h
  · exact findOccGo_some (by simpa [he] using h)

theorem matched_text_splitPlain {t : List Char} : ∀ {s : List Char} {sp : Span},
    sp ∈ splitPlain t s → sp.isMatch = true → lowerStr sp.text = lowerStr t := by
  suffices H : ∀ (n : Nat) (s : List Char), s.length = n → ∀ sp : Span,
      sp ∈ splitPlain t s → sp.isMatch = true → lowerStr sp.text = lowerStr t by
    intro s sp hmem hm
    exact H s.length s rfl sp hmem hm
  intro n
  induction n using Nat.strong_induction_on with
  | _ n ih =>
    intro s hs sp hmem hm
    cases hf : findOcc t s with
    | none =>
      rw [splitPlain_none hf] at hmem
      by_cases hemp : s.isEmpty
      · rw [if_pos hemp] at hmem
        simp at hmem
      · rw [if_neg hemp] at hmem
        simp only [List.mem_singleton] at hmem
        subst hmem
        simp at hm
    | some i =>
      rw [splitPlain_some hf] at hmem
      have hlt := findOcc_drop_lt hf
      rcases List.mem_append.mp hmem with hbefore | hrest
      · by_cases hi : i = 0
        · simp [hi] at hbefore
        · simp only [if_neg hi, List.mem_singleton] at hbefore
          subst hbefore
          simp at hm
      · rcases List.mem_cons.mp hrest with hmatchsp | htail
        · subst hmatchsp
          have hpre := findOcc_some_pre hf
          have htake := isPre_take hpre
          have : lowerStr ((s.drop i).take t.length)
              = (lowerStr (s.drop i)).take (lowerStr t).length := by
            simp [lowerStr, List.map_take]
          simpa [this] using htake
        · exact ih (s.drop (i + t.length)).length (by omega)
            (s.drop (i + t.length)) rfl sp htail hm

theorem matched_mem_applyTarget {segs : List Span} {t : List Char} {sp : Span}
    (hmem : sp ∈ applyTarget segs t) (hm : sp.isMatch = true) :
    sp ∈ segs ∨ (3 ≤ (trimChars t).length ∧ lowerStr sp.text = lowerStr t) := by
  unfold applyTarget at hmem
  by_cases hg : t.isEmpty ∨ (trimChars t).length < 3
  · rw [if_pos hg] at hmem
    exact Or.inl hmem
  · rw [if_neg hg] at hmem
    push_neg at hg
    obtain ⟨seg, hseg, hsp⟩ := List.mem_flatMap.mp hmem
    unfold stepSeg at hsp
    by_cases hsm : seg.isMatch
    · rw [if_pos hsm] at hsp
      simp only [List.mem_singleton] at hsp
      subst hsp
      exact Or.inl hseg
    · rw [if_neg hsm] at hsp
      exact Or.inr ⟨hg.2, matched_text_splitPlain hsp hm⟩

theorem matched_mem_foldl : ∀ (ts : List (List Char)) (segs : List Span)
    (sp : Span), sp ∈ List.foldl applyTarget segs ts → sp.isMatch = true →
    sp ∈ segs ∨ ∃ t ∈ ts, 3 ≤ (trimChars t).length ∧
      lowerStr sp.text = lowerStr t := by
  intro ts
  induction ts with
  | nil =>
    intro segs sp hmem _
    exact Or.inl hmem
  | cons t ts' ih =>
    intro segs sp hmem hm
    rcases ih (applyTarget segs t) sp hmem hm with hbase | ⟨u, hu, hprop⟩
    · rcases matched_mem_applyTarget hbase hm with h | h
      · exact Or.inl h
      · exact Or.inr ⟨t, List.mem_cons_self t ts', h⟩
    · exact Or.inr ⟨u, List.mem_cons_of_mem t hu, hprop⟩

theorem mem_insertDesc {x y : List Char} : ∀ {l : List (List Char)},
    y ∈ insertDesc x l ↔ y = x ∨ y ∈ l := by
  intro l
  induction l with
  | nil => simp [insertDesc]
  | cons z zs ih =>
    unfold insertDesc
    by_cases h : z.length ≤ x.length
    · simp [h]
    · simp only [if_neg h, List.mem_cons, ih]
      tauto

theorem mem_sortTargets {y : List Char} : ∀ {l : List (List Char)},
    y ∈ sortTargets l ↔ y ∈ l := by
  intro l
  induction l with
  | nil => simp [sortTargets]
  | cons x xs ih =>
    simp only [sortTargets, mem_insertDesc, List.mem_cons, ih]

/-- Every matched span comes from a target of trimmed length at least 3 and
case-insensitively equals that target. -/
theorem matched_provenance {text : List Char} {targets : List (List Char)}
    {sp : Span} (hmem : sp ∈ HighlightedText text targets)
    (hm : sp.isMatch = true) :
    ∃ t ∈ targets, 3 ≤ (trimChars t).length ∧
      lowerStr sp.text = lowerStr t := by
  unfold HighlightedText at hmem
  by_cases hg : text.isEmpty ∨ targets.isEmpty
  · rw [if_pos hg] at hmem
    simp only [List.mem_singleton] at hmem
    subst hmem
    simp at hm
  · rw [if_neg hg] at hmem
    rcases matched_mem_foldl (sortTargets targets) [⟨text, false⟩] sp hmem hm
      with hbase | ⟨t, ht, hprop⟩
    · simp only [List.mem_singleton] at hbase
      subst hbase
      simp at hm
    · exact ⟨t, mem_sortTargets.mp ht, hprop⟩

/-- Message role (`'user' | 'assistant'`, types.ts). -/
inductive Role where
  | user
  | assistant
deriving DecidableEq, Repr

/-- `SourceChunk` from types.ts: one citation. -/
structure SourceChunk where
  docId : String
  snippet : List Char
deriving DecidableEq, Repr

/-- `Message` from types.ts.  `highlights` models the optional
`Record<string, string[]>` as an association list looked up on the first
matching key; `timestamp` models the opaque `Date`. -/
structure Message where
  id : String
  role : Role
  content : List Char
  sources : Option (List SourceChunk) := none
  highlights : Option (List (String × List (List Char))) := none
  timestamp : Nat := 0
deriving DecidableEq, Repr

/-- `Chat` from types.ts. -/
structure Chat where
  id : String
  title : List Char
  messages : List Message
  updatedAt : Nat := 0
  isLoading : Option Bool := none
  hasUnreadResponse : Option Bool := none
  isCustomTitle : Option Bool := none
deriving DecidableEq, Repr

/-- `HandbookDoc` from types.ts. -/
structure HandbookDoc where
  id : String
  title : List Char
  category : List Char
  content : List Char
deriving DecidableEq, Repr

/-- First-occurrence deduplication with an accumulator of already seen
elements; models iterating a JavaScript `Set` built from a list. -/
def dedupFirstGo {α : Type} [DecidableEq α] (seen : List α) :
    List α → List α
  | [] => []
  | x :: xs =>
    if x ∈ seen then dedupFirstGo seen xs
    else x :: dedupFirstGo (x :: seen) xs

/-- `Array.from(new Set(l))`: keep the first occurrence of each element. -/
def dedupFirst {α : Type} [DecidableEq α] (l : List α) : List α :=
  dedupFirstGo [] l

/-- The citation snippets of a source list for one document:
`sources.filter(s => s.docId === currentDocId).map(c => c.snippet)`. -/
def citationSnippets (sources : List SourceChunk) (docId : String) :
    List (List Char) :=
  (sources.filter (fun s => s.docId == docId)).map (fun s => s.snippet)

/-- The stored highlight entry of a message for one document:
`contextMessage?.highlights?.[currentDocId]`. -/
def lookupHighlights (m : Message) (docId : String) :
    Option (List (List Char)) :=
  m.highlights.bind (fun h => List.lookup docId h)

/-- The Highlight Target Resolver: `allHighlightTargets` from
SourceViewer.tsx, with the viewer's `sources` taken from the context
message itself (ChatArea always opens the viewer with
`message.sources`). -/
def allHighlightTargets (m : Message) (docId : String) :
    List (List Char) :=
  match lookupHighlights m docId with
  | none => []
  | some relevanceHighlights =>
    let explicitSnippets := citationSnippets (m.sources.getD []) docId
    (dedupFirst (explicitSnippets ++ relevanceHighlights)).filter
      (fun tg => !tg.isEmpty && decide (3 < (trimChars tg).length))

/-- The union the specification's resolver rule describes, with no length
filter: deduplicated citation snippets plus stored phrases.  Stated from
the spec's words for comparison with `allHighlightTargets`. -/
def resolveSpecUnion (m : Message) (docId : String) : List (List Char) :=
  match lookupHighlights m docId with
  | none => []
  | some relevanceHighlights =>
    dedupFirst (citationSnippets (m.sources.getD []) docId ++
      relevanceHighlights)

/-- Global application state owned by App.tsx: the conversation store,
the active chat id, the loaded documents and the in-flight analysis task
set (a `Set<string>` of `"messageId|docId"` keys). -/
structure AppState where
  chats : List Chat
  currentChatId : Option String
  handbookDocs : List HandbookDoc
  analyzingTasks : List String
deriving DecidableEq, Repr

/-- The composite task key: `` `${messageId}|${docId}` ``. -/
def taskKey (messageId docId : String) : String :=
  messageId ++ "|" ++ docId

/-- `new Set(prev).add(taskKey)`. -/
def addTask (l : List String) (k : String) : List String :=
  if k ∈ l then l else l ++ [k]

/-- `next.delete(taskKey)`. -/
def removeTask (l : List String) (k : String) : List String :=
  l.filter (fun x => x ≠ k)

/-- Inner message update of `updateMessageHighlights`: replace (or add)
the `docId` entry of the matching message, via object spread
`{...(m.highlights || {}), [docId]: highlights}`. -/
def updateMsg (messageId docId : String) (highlights : List (List Char))
    (m : Message) : Message :=
  if m.id = messageId then
    let entries := (m.highlights.getD []).filter (fun e => e.1 ≠ docId)
    { m with highlights := some (entries ++ [(docId, highlights)]) }
  else m

/-- Chat-level update of `updateMessageHighlights`. -/
def updateChat (chatId messageId docId : String)
    (highlights : List (List Char)) (c : Chat) : Chat :=
  if c.id = chatId then
    { c with messages := c.messages.map (updateMsg messageId docId highlights) }
  else c

/-- `updateMessageHighlights` from App.tsx: whole-structure replacement of
the chat list. -/
def updateMessageHighlights (s : AppState) (chatId messageId docId : String)
    (highlights : List (List Char)) : AppState :=
  { s with chats := s.chats.map (updateChat chatId messageId docId highlights) }

/-- `handleDeleteChat` from App.tsx. -/
def handleDeleteChat (s : AppState) (id : String) : AppState :=
  { s with chats := s.chats.filter (fun c => c.id ≠ id) }

/-- The data captured for the asynchronous part of a trigger: the chat
active at trigger time, the identifying ids, the resolved document and
the answer text sent to the collaborator. -/
structure PendingTask where
  activeChatId : String
  messageId : String
  docId : String
  doc : HandbookDoc
  answer : List Char
deriving DecidableEq, Repr

/-- Result of the synchronous prefix of `handleTriggerDocAnalysis`: the
state when the handler suspends (or returns), the fetch to perform if one
was started, and the successive values taken by the analyzing-task set
(one entry per `setAnalyzingTasks` call). -/
structure TriggerResult where
  state : AppState
  pending : Option PendingTask
  taskTrace : List (List String)
deriving DecidableEq, Repr

/-- Synchronous prefix of `handleTriggerDocAnalysis` (App.tsx), up to the
`await`: dedup guard, insertion of the task key, document lookup and, on a
missing document, immediate cleanup and return. -/
def handleTriggerDocAnalysisStart (s : AppState)
    (messageId docId : String) (answer : List Char) : TriggerResult :=
  let k := taskKey messageId docId
  match s.currentChatId with
  | none => ⟨s, none, []⟩
  | some activeChatId =>
    if k ∈ s.analyzingTasks then ⟨s, none, []⟩
    else
      let tasks₁ := addTask s.analyzingTasks k
      match s.handbookDocs.find? (fun d => d.id == docId) with
      | none =>
        let tasks₂ := removeTask tasks₁ k
        ⟨{ s with analyzingTasks := tasks₂ }, none, [tasks₁, tasks₂]⟩
      | some doc =>
        ⟨{ s with analyzingTasks := tasks₁ },
          some ⟨activeChatId, messageId, docId, doc, answer⟩, [tasks₁]⟩

/-- `getRelevanceHighlights` from apiService.ts: the backend call either
yields a phrase list or fails; a failure is caught inside the function and
converted to an empty list, so the caller always receives a value. -/
def getRelevanceHighlights (raw : Except Unit (List (List Char))) :
    Except Unit (List (List Char)) :=
  match raw with
  | .ok highlights => .ok highlights
  | .error _ => .ok []

/-- Completion of `handleTriggerDocAnalysis` after the awaited call
settles: on success write the highlights into the captured chat's message,
on an exception skip the write; in both cases remove the task key
(`finally`). -/
def handleTriggerDocAnalysisComplete (s : AppState) (p : PendingTask)
    (result : Except Unit (List (List Char))) : AppState :=
  let s₁ := match result with
    | .ok highlights =>
      updateMessageHighlights s p.activeChatId p.messageId p.docId highlights
    | .error _ => s
  { s₁ with analyzingTasks :=
      removeTask s₁.analyzingTasks (taskKey p.messageId p.docId) }

/-- Read one message of one chat out of the store. -/
def getMessage (s : AppState) (chatId messageId : String) : Option Message :=
  (s.chats.find? (fun c => c.id == chatId)).bind
    (fun c => c.messages.find? (fun m => m.id == messageId))

theorem mem_dedupFirstGo {α : Type} [DecidableEq α] {x : α} :
    ∀ {l seen : List α}, x ∈ dedupFirstGo seen l ↔ x ∈ l ∧ x ∉ seen := by
  intro l
  induction l with
  | nil => intro seen; simp [dedupFirstGo]
  | cons y ys ih =>
    intro seen
    unfold dedupFirstGo
    by_cases hy : y ∈ seen
    · rw [if_pos hy, ih]
      constructor
      · rintro ⟨h₁, h₂⟩
        exact ⟨List.mem_cons_of_mem _ h₁, h₂⟩
      · rintro ⟨h₁, h₂⟩
        rcases List.mem_cons.mp h₁ with rfl | h₁'
        · exact absurd hy h₂
        · exact ⟨h₁', h₂⟩
    · rw [if_neg hy]
      constructor
      · intro hmem
        rcases List.mem_cons.mp hmem with rfl | hmem'
        · exact ⟨List.mem_cons_self _ _, hy⟩
        · obtain ⟨h₁, h₂⟩ := ih.mp hmem'
          exact ⟨List.mem_cons_of_mem _ h₁,
            fun hs => h₂ (List.mem_cons_of_mem _ hs)⟩
      · rintro ⟨h₁, h₂⟩
        rcases List.mem_cons.mp h₁ with rfl | h₁'
        · exact List.mem_cons_self _ _
        · by_cases hxy : x = y
          · subst hxy
            exact List.mem_cons_self _ _
          · refine List.mem_cons_of_mem _ (ih.mpr ⟨h₁', fun hs => ?_⟩)
            rcases List.mem_cons.mp hs with h | h
            · exact hxy h
            · exact h₂ h

theorem mem_dedupFirst {α : Type} [DecidableEq α] {x : α} {l : List α} :
    x ∈ dedupFirst l ↔ x ∈ l := by
  unfold dedupFirst
  rw [mem_dedupFirstGo]
  simp

theorem nodup_dedupFirstGo {α : Type} [DecidableEq α] :
    ∀ {l seen : List α}, (dedupFirstGo seen l).Nodup := by
  intro l
  induction l with
  | nil => intro seen; simp [dedupFirstGo]
  | cons y ys ih =>
    intro seen
    unfold dedupFirstGo
    by_cases hy : y ∈ seen
    · rw [if_pos hy]; exact ih
    · rw [if_neg hy]
      refine List.nodup_cons.mpr ⟨fun hmem => ?_, ih⟩
      have := mem_dedupFirstGo.mp hmem
      exact this.2 (List.mem_cons_self _ _)

theorem nodup_dedupFirst {α : Type} [DecidableEq α] {l : List α} :
    (dedupFirst l).Nodup :=
  nodup_dedupFirstGo

theorem length_dropWhile_le' {α : Type} (p : α → Bool) :
    ∀ l : List α, (l.dropWhile p).length ≤ l.length := by
  intro l
  induction l with
  | nil => simp [List.dropWhile]
  | cons x xs ih =>
    rw [List.dropWhile]
    by_cases hx : p x
    · simp only [hx, if_true]
      exact Nat.le_trans ih (by simp)
    · simp [hx]

theorem length_trimChars_le (s : List Char) :
    (trimChars s).length ≤ s.length := by
  unfold trimChars
  rw [List.length_reverse]
  calc ((s.dropWhile isWs).reverse.dropWhile isWs).length
      ≤ (s.dropWhile isWs).reverse.length := length_dropWhile_le' _ _
    _ = (s.dropWhile isWs).length := List.length_reverse _
    _ ≤ s.length := length_dropWhile_le' _ _

theorem trim_long_not_empty {tg : List Char}
    (h : 3 < (trimChars tg).length) : tg.isEmpty = false := by
  have := length_trimChars_le tg
  cases tg with
  | nil => simp [trimChars] at h
  | cons c cs => rfl

theorem lookup_filter_ne {β : Type} (k : String)
    (h : List (String × β)) :
    List.lookup k (h.filter (fun e => e.1 ≠ k)) = none := by
  induction h with
  | nil => rfl
  | cons e es ih =>
    rw [List.filter]
    by_cases he : e.1 ≠ k
    · have : (decide (e.1 ≠ k)) = true := by simpa using he
      rw [this]
      rw [List.lookup]
      have hbeq : (k == e.1) = false := by
        simp only [beq_eq_false_iff_ne, ne_eq]
        exact fun hk => he hk.symm
      rw [hbeq]
      simpa using ih
    · have : (decide (e.1 ≠ k)) = false := by simpa using he
      rw [this]
      exact ih

theorem lookup_filter_other {β : Type} {k d : String} (hne : k ≠ d)
    (h : List (String × β)) :
    List.lookup k (h.filter (fun e => e.1 ≠ d)) = List.lookup k h := by
  induction h with
  | nil => rfl
  | cons e es ih =>
    rw [List.filter]
    by_cases he : e.1 ≠ d
    · have hd : (decide (e.1 ≠ d)) = true := by simpa using he
      rw [hd]
      rw [List.lookup, List.lookup]
      cases hk : k == e.1
      · simpa using ih
      · rfl
    · have hd : (decide (e.1 ≠ d)) = false := by simpa using he
      rw [hd]
      push_neg at he
      have hk : (k == e.1) = false := by
        simp only [beq_eq_false_iff_ne, ne_eq]
        exact fun hke => hne (hke.trans he)
      rw [ih, List.lookup, hk]

theorem lookup_append {β : Type} (k : String) (l₁ l₂ : List (String × β)) :
    List.lookup k (l₁ ++ l₂) =
      match List.lookup k l₁ with
      | some v => some v
      | none => List.lookup k l₂ := by
  induction l₁ with
  | nil => simp [List.lookup]
  | cons e es ih =>
    rw [List.cons_append, List.lookup, List.lookup]
    cases hk : k == e.1
    · simpa using ih
    · rfl

theorem updateMsg_id (messageId docId : String) (hs : List (List Char))
    (m : Message) : (updateMsg messageId docId hs m).id = m.id := by
  unfold updateMsg
  split <;> rfl

theorem updateChat_id (chatId messageId docId : String)
    (hs : List (List Char)) (c : Chat) :
    (updateChat chatId messageId docId hs c).id = c.id := by
  unfold updateChat
  split <;> rfl

theorem updateMsg_ne {messageId : String} (docId : String)
    (hs : List (List Char)) {m : Message} (h : m.id ≠ messageId) :
    updateMsg messageId docId hs m = m := by
  unfold updateMsg
  rw [if_neg h]

theorem updateChat_ne {chatId : String} (messageId docId : String)
    (hs : List (List Char)) {c : Chat} (h : c.id ≠ chatId) :
    updateChat chatId messageId docId hs c = c := by
  unfold updateChat
  rw [if_neg h]

theorem lookup_updateMsg_self {messageId : String} (docId : String)
    (hs : List (List Char)) {m : Message} (h : m.id = messageId) :
    lookupHighlights (updateMsg messageId docId hs m) docId = some hs := by
  unfold updateMsg
  rw [if_pos h]
  unfold lookupHighlights
  simp only [Option.some_bind]
  rw [lookup_append]
  rw [lookup_filter_ne]
  simp [List.lookup]

theorem lookup_updateMsg_other {docId d : String} (messageId : String)
    (hs : List (List Char)) (m : Message) (hne : d ≠ docId) :
    lookupHighlights (updateMsg messageId docId hs m) d
      = lookupHighlights m d := by
  unfold updateMsg
  by_cases h : m.id = messageId
  · rw [if_pos h]
    unfold lookupHighlights
    simp only [Option.some_bind]
    rw [lookup_append, lookup_filter_other hne]
    cases hm : m.highlights with
    | none =>
      simp only [Option.none_bind, Option.getD_none]
      simp [List.lookup, beq_eq_false_iff_ne.mpr hne]
    | some hl =>
      simp only [Option.some_bind, Option.getD_some]
      cases hl' : List.lookup d hl with
      | none => simp [hl', List.lookup, beq_eq_false_iff_ne.mpr hne]
      | some v => simp [hl']
  · rw [if_neg h]

theorem find?_chats_update (s : AppState)
    (chatId messageId docId : String) (hs : List (List Char)) (q : String) :
    (updateMessageHighlights s chatId messageId docId hs).chats.find?
        (fun c => c.id == q)
      = (s.chats.find? (fun c => c.id == q)).map
          (updateChat chatId messageId docId hs) := by
  unfold updateMessageHighlights
  simp only
  rw [List.find?_map]
  have hfun : ((fun c : Chat => c.id == q) ∘ updateChat chatId messageId docId hs)
      = (fun c : Chat => c.id == q) := by
    funext c
    simp [updateChat_id]
  rw [hfun]

theorem find?_msgs_update (msgs : List Message)
    (messageId docId : String) (hs : List (List Char)) (q : String) :
    (msgs.map (updateMsg messageId docId hs)).find? (fun m => m.id == q)
      = (msgs.find? (fun m => m.id == q)).map (updateMsg messageId docId hs) := by
  rw [List.find?_map]
  have hfun : ((fun m : Message => m.id == q) ∘ updateMsg messageId docId hs)
      = (fun m : Message => m.id == q) := by
    funext m
    simp [updateMsg_id]
  rw [hfun]

theorem getMessage_update_self (s : AppState)
    (chatId messageId docId : String) (hs : List (List Char)) :
    getMessage (updateMessageHighlights s chatId messageId docId hs)
        chatId messageId
      = (getMessage s chatId messageId).map (updateMsg messageId docId hs) := by
  unfold getMessage
  rw [find?_chats_update]
  cases hc : s.chats.find? (fun c => c.id == chatId) with
  | none => rfl
  | some c =>
    simp only [Option.map_some', Option.some_bind]
    have hcid : c.id = chatId := by
      have := List.find?_some hc
      simpa using this
    unfold updateChat
    rw [if_pos hcid]
    exact find?_msgs_update c.messages messageId docId hs messageId

theorem getMessage_update_other_chat (s : AppState)
    {chatId : String} (messageId docId : String) (hs : List (List Char))
    {q : String} (hne : q ≠ chatId) (mq : String) :
    getMessage (updateMessageHighlights s chatId messageId docId hs) q mq
      = getMessage s q mq := by
  unfold getMessage
  rw [find?_chats_update]
  cases hc : s.chats.find? (fun c => c.id == q) with
  | none => rfl
  | some c =>
    simp only [Option.map_some']
    have hcid : c.id = q := by
      have := List.find?_some hc
      simpa using this
    rw [updateChat_ne messageId docId hs (by rw [hcid]; exact hne)]

theorem getMessage_update_other_msg (s : AppState)
    (chatId : String) {messageId : String} (docId : String)
    (hs : List (List Char)) {mq : String} (hne : mq ≠ messageId) :
    getMessage (updateMessageHighlights s chatId messageId docId hs) chatId mq
      = getMessage s chatId mq := by
  unfold getMessage
  rw [find?_chats_update]
  cases hc : s.chats.find? (fun c => c.id == chatId) with
  | none => rfl
  | some c =>
    simp only [Option.map_some', Option.some_bind]
    have hcid : c.id = chatId := by
      have := List.find?_some hc
      simpa using this
    unfold updateChat
    by_cases hcc : c.id = chatId
    · rw [if_pos hcc]
      rw [find?_msgs_update]
      cases hm : c.messages.find? (fun m => m.id == mq) with
      | none => rfl
      | some m =>
        simp only [Option.map_some']
        have hmid : m.id = mq := by
          have := List.find?_some hm
          simpa using this
        rw [updateMsg_ne docId hs (by rw [hmid]; exact hne)]
    · rw [if_neg hcc]

theorem mem_addTask {l : List String} {k : String} :
    k ∈ addTask l k := by
  unfold addTask
  by_cases h : k ∈ l
  · rwa [if_pos h]
  · rw [if_neg h]
    simp

theorem not_mem_removeTask {l : List String} {k : String} :
    k ∉ removeTask l k := by
  unfold removeTask
  intro h
  have := List.mem_filter.mp h
  simp at this

theorem removeTask_addTask {l : List String} {k : String} (h : k ∉ l) :
    removeTask (addTask l k) k = l := by
  unfold removeTask addTask
  rw [if_neg h]
  rw [List.filter_append]
  have h₁ : l.filter (fun x => x ≠ k) = l := by
    rw [List.filter_eq_self]
    intro a ha
    simp only [ne_eq, decide_eq_true_eq]
    exact fun hak => h (hak ▸ ha)
  have h₂ : [k].filter (fun x => x ≠ k) = [] := by simp
  rw [h₁, h₂, List.append_nil]

theorem triggerStart_noChat (s : AppState) (messageId docId : String)
    (answer : List Char) (hc : s.currentChatId = none) :
    handleTriggerDocAnalysisStart s messageId docId answer
      = ⟨s, none, []⟩ := by
  unfold handleTriggerDocAnalysisStart
  rw [hc]

theorem triggerStart_dup (s : AppState) (messageId docId : String)
    (answer : List Char) (a : String) (hc : s.currentChatId = some a)
    (hk : taskKey messageId docId ∈ s.analyzingTasks) :
    handleTriggerDocAnalysisStart s messageId docId answer
      = ⟨s, none, []⟩ := by
  unfold handleTriggerDocAnalysisStart
  rw [hc]
  simp [hk]

theorem triggerStart_missing (s : AppState) (messageId docId : String)
    (answer : List Char) (a : String) (hc : s.currentChatId = some a)
    (hk : taskKey messageId docId ∉ s.analyzingTasks)
    (hd : s.handbookDocs.find? (fun d => d.id == docId) = none) :
    handleTriggerDocAnalysisStart s messageId docId answer
      = ⟨⟨s.chats, some a, s.handbookDocs,
            removeTask (addTask s.analyzingTasks (taskKey messageId docId))
              (taskKey messageId docId)⟩, none,
          [addTask s.analyzingTasks (taskKey messageId docId),
            removeTask (addTask s.analyzingTasks (taskKey messageId docId))
              (taskKey messageId docId)]⟩ := by
  unfold handleTriggerDocAnalysisStart
  rw [hc]
  simp [hk, hd]

theorem triggerStart_found (s : AppState) (messageId docId : String)
    (answer : List Char) (a : String) (doc : HandbookDoc)
    (hc : s.currentChatId = some a)
    (hk : taskKey messageId docId ∉ s.analyzingTasks)
    (hd : s.handbookDocs.find? (fun d => d.id == docId) = some doc) :
    handleTriggerDocAnalysisStart s messageId docId answer
      = ⟨⟨s.chats, some a, s.handbookDocs,
            addTask s.analyzingTasks (taskKey messageId docId)⟩,
          some ⟨a, messageId, docId, doc, answer⟩,
          [addTask s.analyzingTasks (taskKey messageId docId)]⟩ := by
  unfold handleTriggerDocAnalysisStart
  rw [hc]
  simp [hk, hd]

theorem getMessage_id {s : AppState} {chatId messageId : String} {m : Message}
    (h : getMessage s chatId messageId = some m) : m.id = messageId := by
  unfold getMessage at h
  cases hc : s.chats.find? (fun c => c.id == chatId) with
  | none => rw [hc] at h; simp at h
  | some c =>
    rw [hc] at h
    simp only [Option.some_bind] at h
    have := List.find?_some h
    simpa using this

/-- A loaded document used by the concrete scenarios. -/
def docD1 : HandbookDoc :=
  ⟨"d1", "Leave Policy".data, "HR".data,
    "Employees get 25 days of annual leave per year.".data⟩

/-- An assistant message citing `docD1` whose highlights were never
requested. -/
def msgM1 : Message :=
  ⟨"m1", .assistant, "You get 25 days.".data,
    some [⟨"d1", "25 days of annual leave".data⟩], none, 0⟩

/-- The chat holding `msgM1`. -/
def chatA : Chat :=
  ⟨"A", "Chat A".data, [msgM1], 0, some false, some false, some false⟩

/-- An app state with one chat, one loaded document and no running task. -/
def st0 : AppState := ⟨[chatA], some "A", [docD1], []⟩

/-- The same state while the task for `(m1, d1)` is already in flight. -/
def stInFlight : AppState := ⟨[chatA], some "A", [docD1], [taskKey "m1" "d1"]⟩

/-- The same state with no loaded documents at all. -/
def st9 : AppState := ⟨[chatA], some "A", [], []⟩

/-- The pending fetch captured by a trigger of `(m1, d1)` from `st0`. -/
def pendA : PendingTask := ⟨"A", "m1", "d1", docD1, "a".data⟩

/-- A message whose stored `d1` entry holds only a two-character phrase. -/
def msgC7 : Message :=
  ⟨"m1", .assistant, "a".data, some [], some [("d1", ["ab".data])], 0⟩

/-- A message with both a citation snippet and a stored highlight entry
for `d1`. -/
def msgE : Message :=
  ⟨"m1", .assistant, "a".data,
    some [⟨"d1", "25 days of annual leave".data⟩],
    some [("d1", ["per year".data])], 0⟩

/-- Claim C1 — for every document text and every phrase set, concatenating
the texts of all spans produced by the Phrase Matcher reproduces the input
text exactly; an empty phrase set or empty text yields a single plain
segment (and the function is total, so no exception is raised). -/
theorem C1_matcher_lossless (text : List Char) (targets : List (List Char)) :
    joinSpans (HighlightedText text targets) = text ∧
    (targets = [] ∨ text = [] → HighlightedText text targets
      = [⟨text, false⟩]) := by
  constructor
  · unfold HighlightedText
    by_cases hg : text.isEmpty ∨ targets.isEmpty
    · rw [if_pos hg]
      simp [joinSpans]
    · rw [if_neg hg]
      rw [joinSpans_foldl]
      simp [joinSpans]
  · intro h
    unfold HighlightedText
    have hg : text.isEmpty ∨ targets.isEmpty := by
      rcases h with h | h
      · exact Or.inr (by simp [h])
      · exact Or.inl (by simp [h])
    rw [if_pos hg]

/-- Witness for C1 at concrete inputs. -/
theorem C1_matcher_lossless_witness :
    HighlightedText "abc".data [] = [⟨"abc".data, false⟩] ∧
    joinSpans (HighlightedText "annual leave policy".data
      ["annual leave".data]) = "annual leave policy".data :=
  ⟨(C1_matcher_lossless "abc".data []).2 (Or.inl rfl),
    (C1_matcher_lossless "annual leave policy".data ["annual leave".data]).1⟩

/-- Claim C6 — no two matched spans produced by the Phrase Matcher cover a
common character position of the original text, and on the spec's example
(`"annual leave"` and `"leave"` over "annual leave policy") exactly one
matched span covering "annual leave" is produced. -/
theorem C6_matcher_no_overlap :
    (∀ (text : List Char) (targets : List (List Char)) (i j p : Nat),
        i ≠ j → i < (HighlightedText text targets).length →
        j < (HighlightedText text targets).length →
        ((HighlightedText text targets).getD i ⟨[], false⟩).isMatch = true →
        ((HighlightedText text targets).getD j ⟨[], false⟩).isMatch = true →
        coversPos (HighlightedText text targets) i p →
        ¬ coversPos (HighlightedText text targets) j p) ∧
    HighlightedText "annual leave policy".data
        ["annual leave".data, "leave".data]
      = [⟨"annual leave".data, true⟩, ⟨" policy".data, false⟩] := by
  constructor
  · intro text targets i j p hij hi hj _ _ hcov
    rcases Nat.lt_or_ge i j with hlt | hge
    · exact coversPos_disjoint hlt hj hcov
    · have hlt : j < i := Nat.lt_of_le_of_ne hge (fun h => hij h.symm)
      intro hcovj
      exact coversPos_disjoint hlt hi hcovj hcov
  · decide

/-- Witness for C6's universal part on a text with two matched spans. -/
theorem C6_matcher_no_overlap_witness :
    ¬ coversPos (HighlightedText "abcdXabcd".data ["abcd".data]) 2 0 :=
  C6_matcher_no_overlap.1 "abcdXabcd".data ["abcd".data] 0 2 0
    (by decide) (by decide) (by decide) (by decide) (by decide) (by decide)

/-- Claim C8 is refuted: a phrase of trimmed length exactly 3 passes the
matcher's `target.trim().length < 3` filter and does produce a matched
span. -/
theorem C8_counterexample :
    (trimChars "abc".data).length ≤ 3 ∧
    HighlightedText "abc".data ["abc".data] = [⟨"abc".data, true⟩] := by
  decide

/-- Claim C8 (amended) — a phrase whose trimmed length is smaller than 3
never produces a matched span: every matched span case-insensitively
differs from such a phrase. -/
theorem C8_short_phrases_never_match (text : List Char)
    (targets : List (List Char)) (p : List Char) (hp : p ∈ targets)
    (hshort : (trimChars p).length < 3) (sp : Span)
    (hmem : sp ∈ HighlightedText text targets) (hm : sp.isMatch = true) :
    lowerStr sp.text ≠ lowerStr p := by
  intro heq
  obtain ⟨t, ht, htrim, hlow⟩ := matched_provenance hmem hm
  have hlp : lowerStr t = lowerStr p := by rw [← hlow, heq]
  have h₁ := length_trimChars_lowerStr t
  have h₂ := length_trimChars_lowerStr p
  rw [hlp] at h₁
  omega

/-- Witness for C8 (amended): with a long and a short phrase present, the
matched span differs from the short phrase. -/
theorem C8_short_phrases_never_match_witness :
    lowerStr "xyzw".data ≠ lowerStr "ab".data :=
  C8_short_phrases_never_match "xyzw ab".data ["xyzw".data, "ab".data]
    "ab".data (by decide) (by decide) ⟨"xyzw".data, true⟩ (by decide) rfl

/-- Claim C2 — if `highlightsByDocument` has no entry for the document, the
resolver returns the empty set, regardless of existing citation
snippets. -/
theorem C2_resolve_clean_until_requested (m : Message) (docId : String)
    (h : lookupHighlights m docId = none) :
    allHighlightTargets m docId = [] := by
  unfold allHighlightTargets
  rw [h]

/-- Witness for C2: a message with a citation snippet for `d1` but no
highlight entry resolves to the empty set. -/
theorem C2_resolve_clean_until_requested_witness :
    citationSnippets (msgM1.sources.getD []) "d1"
      = ["25 days of annual leave".data] ∧
    allHighlightTargets msgM1 "d1" = [] :=
  ⟨by decide, C2_resolve_clean_until_requested msgM1 "d1" rfl⟩

/-- Claim C7 is refuted: a stored entry holding only a two-character phrase
is filtered out by `t.trim().length > 3`, so the resolver's result is not
the plain deduplicated union. -/
theorem C7_counterexample :
    lookupHighlights msgC7 "d1" = some ["ab".data] ∧
    resolveSpecUnion msgC7 "d1" = ["ab".data] ∧
    allHighlightTargets msgC7 "d1" = [] := by
  decide

/-- Claim C7 (amended) — once an entry exists, the resolver returns exactly
the deduplicated union of the message's citation snippets for the document
and the stored phrases, restricted to targets of trimmed length greater
than 3. -/
theorem C7_resolve_union (m : Message) (docId : String)
    (entry : List (List Char)) (h : lookupHighlights m docId = some entry) :
    (allHighlightTargets m docId).Nodup ∧
    ∀ tg : List Char, tg ∈ allHighlightTargets m docId ↔
      ((tg ∈ citationSnippets (m.sources.getD []) docId ∨ tg ∈ entry) ∧
        3 < (trimChars tg).length) := by
  unfold allHighlightTargets
  rw [h]
  constructor
  · exact List.Nodup.filter _ nodup_dedupFirst
  · intro tg
    rw [List.mem_filter, mem_dedupFirst, List.mem_append]
    constructor
    · rintro ⟨hmem, hfilt⟩
      simp only [Bool.and_eq_true, decide_eq_true_eq] at hfilt
      exact ⟨hmem, hfilt.2⟩
    · rintro ⟨hmem, hlen⟩
      refine ⟨hmem, ?_⟩
      simp only [Bool.and_eq_true, Bool.not_eq_true', decide_eq_true_eq]
      exact ⟨trim_long_not_empty hlen, hlen⟩

/-- Witness for C7 (amended): the stored phrase "per year" is resolved once
the entry exists. -/
theorem C7_resolve_union_witness :
    "per year".data ∈ allHighlightTargets msgE "d1" :=
  ((C7_resolve_union msgE "d1" ["per year".data] rfl).2 "per year".data).mpr
    ⟨Or.inr (by decide), by decide⟩

/-- Claim C3 is refuted: a failing backend fetch is caught inside
`getRelevanceHighlights` and converted to an empty phrase list, so the
completion writes an empty entry for the document — afterwards an entry
exists (`some []`), a state distinguishable from never-triggered. -/
theorem C3_counterexample :
    (handleTriggerDocAnalysisStart st0 "m1" "d1" "a".data).pending
      = some pendA ∧
    ((getMessage (handleTriggerDocAnalysisComplete
        (handleTriggerDocAnalysisStart st0 "m1" "d1" "a".data).state pendA
        (getRelevanceHighlights (Except.error ()))) "A" "m1").bind
      (fun m => lookupHighlights m "d1")) = some [] := by
  decide

/-- Claim C3 (amended) — when the underlying fetch fails,
`getRelevanceHighlights` yields `ok []` and the completion writes an empty
highlights entry for the document into the owning message (the state
"analyzed, nothing found", which carries an entry), and the task key is
removed. -/
theorem C3_failure_writes_empty_entry (s : AppState) (pt : PendingTask)
    (m : Message) (h : getMessage s pt.activeChatId pt.messageId = some m) :
    getRelevanceHighlights (Except.error ()) = Except.ok [] ∧
    getMessage (handleTriggerDocAnalysisComplete s pt
        (getRelevanceHighlights (Except.error ())))
        pt.activeChatId pt.messageId
      = some (updateMsg pt.messageId pt.docId [] m) ∧
    lookupHighlights (updateMsg pt.messageId pt.docId [] m) pt.docId
      = some [] ∧
    taskKey pt.messageId pt.docId ∉
      (handleTriggerDocAnalysisComplete s pt
        (getRelevanceHighlights (Except.error ()))).analyzingTasks := by
  refine ⟨rfl, ?_, ?_, ?_⟩
  · have hred : getMessage (handleTriggerDocAnalysisComplete s pt
        (getRelevanceHighlights (Except.error ())))
        pt.activeChatId pt.messageId
        = getMessage (updateMessageHighlights s pt.activeChatId pt.messageId
            pt.docId []) pt.activeChatId pt.messageId := rfl
    rw [hred, getMessage_update_self, h]
    rfl
  · exact lookup_updateMsg_self pt.docId [] (getMessage_id h)
  · exact not_mem_removeTask

/-- Witness for C3 (amended) at the concrete scenario. -/
theorem C3_failure_writes_empty_entry_witness :
    getRelevanceHighlights (Except.error ()) = Except.ok [] ∧
    getMessage (handleTriggerDocAnalysisComplete st0 pendA
        (getRelevanceHighlights (Except.error ()))) "A" "m1"
      = some (updateMsg "m1" "d1" [] msgM1) ∧
    lookupHighlights (updateMsg "m1" "d1" [] msgM1) "d1" = some [] ∧
    taskKey "m1" "d1" ∉
      (handleTriggerDocAnalysisComplete st0 pendA
        (getRelevanceHighlights (Except.error ()))).analyzingTasks :=
  C3_failure_writes_empty_entry st0 pendA msgM1 (by decide)

/-- Claim C4 — a trigger for a key already in flight performs no second
fetch and changes nothing; a started fetch leaves its key in the analyzing
set; and after completion (success or failure) the key is absent. -/
theorem C4_dedup_and_cleanup :
    (∀ (s : AppState) (messageId docId : String) (answer : List Char),
        taskKey messageId docId ∈ s.analyzingTasks →
        handleTriggerDocAnalysisStart s messageId docId answer
          = ⟨s, none, []⟩) ∧
    (∀ (s : AppState) (messageId docId : String) (answer : List Char)
        (pt : PendingTask),
        (handleTriggerDocAnalysisStart s messageId docId answer).pending
          = some pt →
        taskKey messageId docId ∈
          (handleTriggerDocAnalysisStart s messageId docId
            answer).state.analyzingTasks) ∧
    (∀ (s : AppState) (pt : PendingTask)
        (result : Except Unit (List (List Char))),
        taskKey pt.messageId pt.docId ∉
          (handleTriggerDocAnalysisComplete s pt result).analyzingTasks) := by
  refine ⟨?_, ?_, ?_⟩
  · intro s messageId docId answer hmem
    cases hc : s.currentChatId with
    | none => exact triggerStart_noChat s messageId docId answer hc
    | some a => exact triggerStart_dup s messageId docId answer a hc hmem
  · intro s messageId docId answer pt hpend
    cases hc : s.currentChatId with
    | none =>
      rw [triggerStart_noChat s messageId docId answer hc] at hpend
      simp at hpend
    | some a =>
      by_cases hk : taskKey messageId docId ∈ s.analyzingTasks
      · rw [triggerStart_dup s messageId docId answer a hc hk] at hpend
        simp at hpend
      · cases hd : s.handbookDocs.find? (fun d => d.id == docId) with
        | none =>
          rw [triggerStart_missing s messageId docId answer a hc hk hd]
            at hpend
          simp at hpend
        | some doc =>
          rw [triggerStart_found s messageId docId answer a doc hc hk hd]
          exact mem_addTask
  · intro s pt result
    unfold handleTriggerDocAnalysisComplete
    exact not_mem_removeTask

/-- Witness for C4: a duplicate trigger is a no-op, a fresh trigger marks
the key, and completion clears it. -/
theorem C4_dedup_and_cleanup_witness :
    handleTriggerDocAnalysisStart stInFlight "m1" "d1" "a".data
      = ⟨stInFlight, none, []⟩ ∧
    taskKey "m1" "d1" ∈ (handleTriggerDocAnalysisStart st0 "m1" "d1"
      "a".data).state.analyzingTasks ∧
    taskKey "m1" "d1" ∉ (handleTriggerDocAnalysisComplete st0 pendA
      (Except.error ())).analyzingTasks :=
  ⟨C4_dedup_and_cleanup.1 stInFlight "m1" "d1" "a".data (by decide),
    C4_dedup_and_cleanup.2.1 st0 "m1" "d1" "a".data pendA (by decide),
    C4_dedup_and_cleanup.2.2 st0 pendA (Except.error ())⟩

/-- Claim C5 — a completion writes into the chat captured at trigger time,
independently of the currently active chat, and it changes nothing except
the one `docId` entry of the one triggering message. -/
theorem C5_stale_chat_safety :
    (∀ (s : AppState) (pt : PendingTask)
        (result : Except Unit (List (List Char))) (b : Option String),
        handleTriggerDocAnalysisComplete { s with currentChatId := b } pt
            result
          = { handleTriggerDocAnalysisComplete s pt result with
              currentChatId := b }) ∧
    (∀ (s : AppState) (pt : PendingTask) (hs : List (List Char))
        (m : Message),
        getMessage s pt.activeChatId pt.messageId = some m →
        getMessage (handleTriggerDocAnalysisComplete s pt (Except.ok hs))
            pt.activeChatId pt.messageId
          = some (updateMsg pt.messageId pt.docId hs m) ∧
        lookupHighlights (updateMsg pt.messageId pt.docId hs m) pt.docId
          = some hs) ∧
    (∀ (s : AppState) (pt : PendingTask) (hs : List (List Char))
        (q mq : String), q ≠ pt.activeChatId →
        getMessage (handleTriggerDocAnalysisComplete s pt (Except.ok hs)) q mq
          = getMessage s q mq) ∧
    (∀ (s : AppState) (pt : PendingTask) (hs : List (List Char))
        (mq : String), mq ≠ pt.messageId →
        getMessage (handleTriggerDocAnalysisComplete s pt (Except.ok hs))
            pt.activeChatId mq
          = getMessage s pt.activeChatId mq) ∧
    (∀ (messageId docId d : String) (hs : List (List Char)) (m : Message),
        d ≠ docId →
        lookupHighlights (updateMsg messageId docId hs m) d
          = lookupHighlights m d) := by
  refine ⟨?_, ?_, ?_, ?_, ?_⟩
  · intro s pt result b
    unfold handleTriggerDocAnalysisComplete updateMessageHighlights
    cases result <;> rfl
  · intro s pt hs m h
    constructor
    · have hred : getMessage (handleTriggerDocAnalysisComplete s pt
          (Except.ok hs)) pt.activeChatId pt.messageId
          = getMessage (updateMessageHighlights s pt.activeChatId
              pt.messageId pt.docId hs) pt.activeChatId pt.messageId := rfl
      rw [hred, getMessage_update_self, h]
      rfl
    · exact lookup_updateMsg_self pt.docId hs (getMessage_id h)
  · intro s pt hs q mq hne
    have hred : getMessage (handleTriggerDocAnalysisComplete s pt
        (Except.ok hs)) q mq
        = getMessage (updateMessageHighlights s pt.activeChatId
            pt.messageId pt.docId hs) q mq := rfl
    rw [hred]
    exact getMessage_update_other_chat s pt.messageId pt.docId hs hne mq
  · intro s pt hs mq hne
    have hred : getMessage (handleTriggerDocAnalysisComplete s pt
        (Except.ok hs)) pt.activeChatId mq
        = getMessage (updateMessageHighlights s pt.activeChatId
            pt.messageId pt.docId hs) pt.activeChatId mq := rfl
    rw [hred]
    exact getMessage_update_other_msg s pt.activeChatId pt.docId hs hne
  · intro messageId docId d hs m hne
    exact lookup_updateMsg_other messageId hs m hne

/-- Witness for C5: the completion of `pendA` lands in chat A's message
`m1` even while chat B is active. -/
theorem C5_stale_chat_safety_witness :
    getMessage (handleTriggerDocAnalysisComplete st0 pendA
        (Except.ok ["per year".data])) "A" "m1"
      = some (updateMsg "m1" "d1" ["per year".data] msgM1) ∧
    lookupHighlights (updateMsg "m1" "d1" ["per year".data] msgM1) "d1"
      = some ["per year".data] :=
  C5_stale_chat_safety.2.1 st0 pendA ["per year".data] msgM1 (by decide)

/-- Claim C9 is refuted in its "never inserts the key" part: with no
matching document the handler does insert the key into the analyzing set
(first trace entry) before removing it again. -/
theorem C9_counterexample :
    st9.handbookDocs.find? (fun d => d.id == "d1") = none ∧
    (handleTriggerDocAnalysisStart st9 "m1" "d1" "a".data).taskTrace
      = [[taskKey "m1" "d1"], []] ∧
    ∃ l ∈ (handleTriggerDocAnalysisStart st9 "m1" "d1" "a".data).taskTrace,
      taskKey "m1" "d1" ∈ l := by
  decide

/-- Claim C9 (amended) — if no loaded document matches, the trigger is a
net no-op: it inserts the key and removes it again within the same
synchronous section, starts no fetch, and returns the state unchanged. -/
theorem C9_missing_doc_noop (s : AppState) (messageId docId : String)
    (answer : List Char) (c : String) (hc : s.currentChatId = some c)
    (hk : taskKey messageId docId ∉ s.analyzingTasks)
    (hd : s.handbookDocs.find? (fun d => d.id == docId) = none) :
    (handleTriggerDocAnalysisStart s messageId docId answer).state = s ∧
    (handleTriggerDocAnalysisStart s messageId docId answer).pending
      = none ∧
    (handleTriggerDocAnalysisStart s messageId docId answer).taskTrace
      = [s.analyzingTasks ++ [taskKey messageId docId],
          s.analyzingTasks] := by
  rw [triggerStart_missing s messageId docId answer c hc hk hd]
  refine ⟨?_, rfl, ?_⟩
  · simp only
    rw [removeTask_addTask hk, ← hc]
  · simp only
    rw [removeTask_addTask hk]
    unfold addTask
    rw [if_neg hk]

/-- Witness for C9 (amended) at the concrete scenario without documents. -/
theorem C9_missing_doc_noop_witness :
    (handleTriggerDocAnalysisStart st9 "m1" "d1" "a".data).state = st9 ∧
    (handleTriggerDocAnalysisStart st9 "m1" "d1" "a".data).pending = none ∧
    (handleTriggerDocAnalysisStart st9 "m1" "d1" "a".data).taskTrace
      = [st9.analyzingTasks ++ [taskKey "m1" "d1"], st9.analyzingTasks] :=
  C9_missing_doc_noop st9 "m1" "d1" "a".data "A" rfl (by decide) (by decide)

/-- Claim C10 — if the owning chat was deleted before the fetch completed,
the completion leaves the whole conversation store unchanged and still
removes the task key. -/
theorem C10_deleted_chat_completion_dropped (s : AppState) (pt : PendingTask)
    (result : Except Unit (List (List Char))) :
    (handleTriggerDocAnalysisComplete (handleDeleteChat s pt.activeChatId)
        pt result).chats = (handleDeleteChat s pt.activeChatId).chats ∧
    taskKey pt.messageId pt.docId ∉
      (handleTriggerDocAnalysisComplete (handleDeleteChat s pt.activeChatId)
        pt result).analyzingTasks := by
  constructor
  · cases result with
    | error e => rfl
    | ok hs =>
      have hall : ∀ c ∈ (handleDeleteChat s pt.activeChatId).chats,
          updateChat pt.activeChatId pt.messageId pt.docId hs c = c := by
        intro c hcmem
        unfold handleDeleteChat at hcmem
        have hmf := List.mem_filter.mp hcmem
        exact updateChat_ne pt.messageId pt.docId hs (by simpa using hmf.2)
      have hmap : (handleDeleteChat s pt.activeChatId).chats.map
          (updateChat pt.activeChatId pt.messageId pt.docId hs)
          = (handleDeleteChat s pt.activeChatId).chats := by
        rw [List.map_congr_left (fun a ha => hall a ha)]
        exact List.map_id _
      exact hmap
  · exact not_mem_removeTask

end Rag
